import Mathlib

/-!
Verification development for the fdfault output-list module
(`src/outputlist.cpp`) and the friction interface solve contract.

The input stream is modelled character-by-character, following the C++
`std::ifstream` semantics used by `outputlist::outputlist`:
`getline` reads up to a newline, `operator>>` skips whitespace and reads a
token, and the stream carries `eofbit`/`failbit` state.  Extraction on a
stream whose `failbit` is set is a no-op; a failed arithmetic extraction
stores 0 (C++11 semantics); a failed sentry leaves the target untouched.
-/

namespace Fdfault

/-- Whitespace characters recognised by `operator>>` and stream sentries:
the six characters the default-locale `isspace` accepts (space, `\t`,
`\n`, `\v`, `\f`, `\r`). -/
def isWS (c : Char) : Bool :=
  c = ' ' || c = '\t' || c = '\n' || c = '\x0b' || c = '\x0c' || c = '\r'

/-- Model of the C++ `ifstream` read head: remaining characters plus the
`failbit` and `eofbit` state flags. -/
structure IStream where
  chars : List Char
  failb : Bool
  eofb : Bool
deriving DecidableEq

/-- Split a character list at the first newline: returns the line, the rest
of the stream after the newline, and whether a newline was found (if not,
the whole input was consumed, which corresponds to hitting end-of-file). -/
def splitLine : List Char → List Char × List Char × Bool
  | [] => ([], [], false)
  | c :: cs =>
    if c = '\n' then ([], cs, true)
    else
      let r := splitLine cs
      (c :: r.1, r.2.1, r.2.2)

/-- Model of `std::getline(paramfile, line)`.  Fails (returning `none`) when
the stream is already in a fail/eof state or is empty; otherwise reads one
line, setting `eofbit` when the line was terminated by end-of-file rather
than a newline. -/
def getline (s : IStream) : IStream × Option (List Char) :=
  if s.failb || s.eofb then ({ s with failb := true }, none)
  else
    match s.chars with
    | [] => ({ s with failb := true, eofb := true }, none)
    | c :: cs =>
      let r := splitLine (c :: cs)
      ({ s with chars := r.2.1, eofb := !r.2.2 }, some r.1)

/-- Drop leading whitespace (the skipping performed by an input sentry). -/
def dropWS : List Char → List Char
  | [] => []
  | c :: cs => if isWS c then dropWS cs else c :: cs

/-- Read a maximal run of non-whitespace characters (a `>>` string token). -/
def takeTok : List Char → List Char × List Char
  | [] => ([], [])
  | c :: cs =>
    if isWS c then ([], c :: cs)
    else
      let r := takeTok cs
      (c :: r.1, r.2)

/-- Read a maximal run of decimal digits. -/
def takeDigits : List Char → List Char × List Char
  | [] => ([], [])
  | c :: cs =>
    if c.isDigit then
      let r := takeDigits cs
      (c :: r.1, r.2)
    else ([], c :: cs)

/-- Value of a most-significant-first digit string. -/
def digitsToNat (ds : List Char) : Nat :=
  ds.foldl (fun a c => 10 * a + (c.toNat - 48)) 0

/-- Model of `paramfile >> field` for a `std::string` target `cur`.
If the stream is already failed or at eof the sentry fails and `cur` is
untouched; if end-of-file is hit while skipping whitespace the sentry sets
`failbit | eofbit` and `cur` is untouched; otherwise the token replaces
`cur`. -/
def extractStr (s : IStream) (cur : String) : IStream × String :=
  if s.failb || s.eofb then ({ s with failb := true }, cur)
  else
    match dropWS s.chars with
    | [] => ({ s with chars := [], failb := true, eofb := true }, cur)
    | c :: cs =>
      let r := takeTok (c :: cs)
      ({ s with chars := r.2, eofb := r.2.isEmpty }, String.mk r.1)

/-- The range of the C++ `int` targets of `paramfile >> n`
(32-bit two's complement on every platform fdfault targets). -/
def intMax : Int := 2147483647

def intMin : Int := -2147483648

/-- Model of `paramfile >> n` for an `int` target holding `cur`
(`none` models an indeterminate, never-assigned local).  A failed sentry
leaves `cur`; a sentry that succeeds but finds no digits sets `failbit`
and stores 0 (C++11); a numeric field whose value does not fit in `int`
stores the clamped value (`INT_MIN`/`INT_MAX`) and sets `failbit`
(C++11 `num_get` overflow semantics); otherwise the parsed value is
stored.  `signSplit` consumes the optional leading sign of the numeric
field. -/
def signSplit (c : Char) (cs : List Char) : Bool × List Char :=
  if c = '-' then (true, cs)
  else if c = '+' then (false, cs)
  else (false, c :: cs)

def extractInt (s : IStream) (cur : Option Int) : IStream × Option Int :=
  if s.failb || s.eofb then ({ s with failb := true }, cur)
  else
    match dropWS s.chars with
    | [] => ({ s with chars := [], failb := true, eofb := true }, cur)
    | c :: cs =>
      let sr := signSplit c cs
      let r := takeDigits sr.2
      if r.1.isEmpty then
        ({ s with chars := r.2, failb := true, eofb := r.2.isEmpty }, some 0)
      else
        let n : Int := Int.ofNat (digitsToNat r.1)
        let v : Int := if sr.1 then -n else n
        if v < intMin then
          ({ s with chars := r.2, failb := true, eofb := r.2.isEmpty }, some intMin)
        else if intMax < v then
          ({ s with chars := r.2, failb := true, eofb := r.2.isEmpty }, some intMax)
        else
          ({ s with chars := r.2, eofb := r.2.isEmpty }, some v)

/-- One node of the singly linked output list.  The node-local data follows
the parameters `outputlist::outputlist` passes to `new outputunit(...)`:
declared name and field plus the temporal (`tm`,`tp`,`ts`) and spatial
(`xm`,`xp`,`xs`, one triple per dimension, components ordered by dimension)
window parameters.  `Option Int` models the C++ `int` locals, which are
never initialised before the first extraction (`none` = indeterminate).
`fileOpen` is the unit's mutable open-file state (spec: open-on-first-write,
close-on-shutdown); `outputunit`'s own code is outside `src/`, so this
record keeps exactly the state the spec ascribes to a unit (field selection,
window parameters, open-file state).  The naming inputs `probname`,
`datadir`, `nt` and the domain reference are consumed only by the external
`outputunit` constructor and are not part of the list structure. -/
structure outputunit where
  name : String
  field : String
  tm : Option Int
  tp : Option Int
  ts : Option Int
  xm : Option Int × Option Int × Option Int
  xp : Option Int × Option Int × Option Int
  xs : Option Int × Option Int × Option Int
  fileOpen : Bool
deriving DecidableEq

/-- The local variables of `outputlist::outputlist` that persist across
loop iterations: `field` (a default-constructed `std::string`, hence
initially `""`) and the thirteen `int` locals (uninitialised, hence
initially `none`). -/
structure LocalVars where
  field : String
  tm : Option Int
  tp : Option Int
  ts : Option Int
  xm0 : Option Int
  xp0 : Option Int
  xs0 : Option Int
  xm1 : Option Int
  xp1 : Option Int
  xs1 : Option Int
  xm2 : Option Int
  xp2 : Option Int
  xs2 : Option Int
deriving DecidableEq

/-- Initial values of the constructor's locals. -/
def initLocals : LocalVars :=
  ⟨"", none, none, none, none, none, none, none, none, none, none, none, none⟩

/-- Body of one iteration of the read loop of `outputlist::outputlist`:
the thirteen `>>` extractions (in source order: `field`, `tm`, `tp`, `ts`,
then `xm[i] xp[i] xs[i]` for `i = 0,1,2`), the trailing
`getline(paramfile, line)` that skips the rest of the token line, and the
`new outputunit(...)` call recorded as a fresh node. -/
def readUnitBody (s : IStream) (lv : LocalVars) (nm : String) :
    IStream × LocalVars × outputunit :=
  let r1 := extractStr s lv.field
  let r2 := extractInt r1.1 lv.tm
  let r3 := extractInt r2.1 lv.tp
  let r4 := extractInt r3.1 lv.ts
  let r5 := extractInt r4.1 lv.xm0
  let r6 := extractInt r5.1 lv.xp0
  let r7 := extractInt r6.1 lv.xs0
  let r8 := extractInt r7.1 lv.xm1
  let r9 := extractInt r8.1 lv.xp1
  let r10 := extractInt r9.1 lv.xs1
  let r11 := extractInt r10.1 lv.xm2
  let r12 := extractInt r11.1 lv.xp2
  let r13 := extractInt r12.1 lv.xs2
  let r14 := getline r13.1
  let lv2 : LocalVars :=
    ⟨r1.2, r2.2, r3.2, r4.2, r5.2, r6.2, r7.2, r8.2, r9.2, r10.2, r11.2, r12.2, r13.2⟩
  let u : outputunit :=
    ⟨nm, lv2.field, lv2.tm, lv2.tp, lv2.ts,
      (lv2.xm0, lv2.xm1, lv2.xm2), (lv2.xp0, lv2.xp1, lv2.xp2),
      (lv2.xs0, lv2.xs1, lv2.xs2), false⟩
  (r14.1, lv2, u)

/-- The unit-reading loop of `outputlist::outputlist`
(`while (getline(paramfile, line)) { if (line.empty()) break; ... }`),
appending each new node at the tail (the `rootunit`/`nunit` pointer dance).
The loop terminates because each successful `getline` strictly consumes
characters; `fuel` is a structural bound on the number of iterations, and
`readUnitsF_fuel_indep` below shows the result does not depend on it once
it exceeds the stream length. -/
def readUnitsF : Nat → IStream → LocalVars → List outputunit →
    IStream × List outputunit
  | 0, s, _, acc => (s, acc)
  | fuel + 1, s, lv, acc =>
    match getline s with
    | (s2, none) => (s2, acc)
    | (s2, some l) =>
      if l.isEmpty then (s2, acc)
      else
        let r := readUnitBody s2 lv (String.mk l)
        readUnitsF fuel r.1 r.2.1 (acc ++ [r.2.2])

/-- The literal section marker scanned for by `outputlist::outputlist`. -/
def markerLine : String := "[fdfault.outputlist]"

/-- The marker-scan loop
(`while (getline(paramfile,line)) { if (line == "[fdfault.outputlist]") break; }`). -/
def scanToMarkerF : Nat → IStream → IStream
  | 0, s => s
  | fuel + 1, s =>
    match getline s with
    | (s2, none) => s2
    | (s2, some l) => if String.mk l = markerLine then s2 else scanToMarkerF fuel s2

/-- Outcome of running `outputlist::outputlist`: `fatal msg` models
`cerr << msg` followed by `MPI_Abort(MPI_COMM_WORLD,-1)` — the message is
written to standard error and the whole distributed computation is aborted
collectively, so construction never returns; `ok units` models a normal
return with the built list. -/
inductive CtorResult where
  | fatal (msg : String)
  | ok (units : List outputunit)
deriving DecidableEq

/-- A freshly opened `ifstream` positioned at the start of `contents`. -/
def mkStream (contents : String) : IStream := ⟨contents.data, false, false⟩

/-- Model of `outputlist::outputlist(filename, probname, datadir, nt, d)`.
`fileExists` models `paramfile.is_open()`; `contents` is the text behind
`filename`.  `probname`, `datadir` and `nt` are forwarded opaquely to the
external `outputunit` constructor (they only affect output-file naming, not
the list structure) and the `domain` reference is likewise opaque, so they
do not appear in the result.  The scan loop and the read loop are run with
fuel exceeding the stream length, which the fuel-independence lemmas show
is never exhausted. -/
def outputlist_ctor (fileExists : Bool) (contents : String)
    (probname datadir : String) (nt : Int) : CtorResult :=
  if fileExists then
    let s0 := mkStream contents
    let s1 := scanToMarkerF (s0.chars.length + 1) s0
    if s1.eofb then CtorResult.fatal "Error reading outputlist from input file\n"
    else
      let r := readUnitsF (s1.chars.length + 1) s1 initLocals []
      CtorResult.ok r.2
  else CtorResult.fatal "Error opening input file in outputlist.cpp\n"

/-- Ghost events recording what the list-traversal member functions of
`outputlist` do to the node at position `i` of the list:
`access i` = a call to `get_next_unit()` on node `i`;
`close i` = a call that closes node `i`'s output file
(`close_file()` from `close_list`, or the file release performed by
`delete`/`~outputunit` during teardown);
`free i` = node `i` is deallocated (`delete`);
`write i` = a call to `write_unit(tstep, dt, d)` on node `i`. -/
inductive TEv where
  | access (i : Nat)
  | close (i : Nat)
  | free (i : Nat)
  | write (i : Nat)
deriving DecidableEq

/-- The node an event touches. -/
def touches : TEv → Nat
  | .access i => i
  | .close i => i
  | .free i => i
  | .write i => i

/-- Event trace of `outputlist::~outputlist` starting from the node at
position `k`, given the open-file flags of the remaining nodes.  Each
iteration of `while (ounit) { cunit = cunit->get_next_unit(); delete ounit;
ounit = cunit; }` first reads the current node's next pointer (`access`),
then deletes it.  Modelled from the spec: `~outputunit` is not under
`src/`; per the spec an output unit's destruction "must release all owned
file handles", so `delete` on a node with an open file emits `close` before
`free`. -/
def destructFrom : Nat → List Bool → List TEv
  | _, [] => []
  | k, b :: rest =>
    TEv.access k :: ((if b then [TEv.close k] else []) ++ TEv.free k :: destructFrom (k + 1) rest)

/-- Event trace of `outputlist::~outputlist` on a whole list. -/
def destructTrace (us : List outputunit) : List TEv :=
  destructFrom 0 (us.map fun u => u.fileOpen)

/-- Modelled from the spec: `outputunit::close_file` is not under `src/`;
per the spec the file lifecycle is close-on-shutdown, so closing clears the
unit's open-file state and touches nothing else. -/
def close_file (u : outputunit) : outputunit := { u with fileOpen := false }

/-- Model of `outputlist::close_list` from node `k` on: the traversal
`while (cunit) { cunit->close_file(); cunit = cunit->get_next_unit(); }`,
returning the nodes after the calls together with the trace of `close_file`
calls in traversal order. -/
def close_list : Nat → List outputunit → List outputunit × List TEv
  | _, [] => ([], [])
  | k, u :: rest =>
    let r := close_list (k + 1) rest
    (close_file u :: r.1, TEv.close k :: r.2)

/-- Model of `outputlist::write_list(tstep, dt, d)` from node `k` on: the
traversal `while (cunit) { cunit->write_unit(tstep,dt,d); cunit =
cunit->get_next_unit(); }`.  `outputunit::write_unit` is external to
`src/`; its effect on the unit's own state (e.g. opening the file on first
write) is abstracted as an arbitrary per-unit function `wf`, so the theorem
below holds for every possible behaviour of `write_unit`.  Returns the
nodes after the calls and the trace of `write_unit` calls in traversal
order. -/
def write_list (wf : outputunit → outputunit) :
    Nat → List outputunit → List outputunit × List TEv
  | _, [] => ([], [])
  | k, u :: rest =>
    let r := write_list wf (k + 1) rest
    (wf u :: r.1, TEv.write k :: r.2)

/-- Strict ordering key on trace events: events are ordered first by the
node they touch, then `access < close < free` within a node. -/
def evKey : TEv → Nat
  | .access i => 3 * i
  | .close i => 3 * i + 1
  | .free i => 3 * i + 2
  | .write i => 3 * i + 1

/-- Modelled from the spec: the body of `friction::solve_fs` is not under
`src/` (only its declaration in the friction header is).  Per spec §4.1 it
receives the incoming elastic characteristic traction magnitude `phi`, the
radiation-damping coefficient `eta` (= z1·z2/(z1+z2)), and the effective
normal stress `snc`, and returns the slip velocity `v` and shear traction
`s` satisfying the radiation-damping line `s = phi - eta * v` together with
the friction constraint: `s` equals the strength whenever `v > 0`,
otherwise `v = 0` and `s ≤ strength`.  Real arithmetic is modelled over
`ℚ`. -/
structure boundchar where
  v : ℚ
  s : ℚ
deriving DecidableEq

/-- Modelled from the spec: the frictional shear strength actually used by
the solve.  `nominal` is the friction law's nominal strength output; per
the spec, zero or negative effective normal stress (loss of contact) forces
the strength to zero regardless of `nominal`. -/
def effectiveStrength (nominal snc : ℚ) : ℚ :=
  if snc ≤ 0 then 0 else nominal

/-- Modelled from the spec: `friction::solve_fs(phi, eta, snc, i, j, t)`.
Zero or negative effective normal stress bypasses the root-find entirely
(full stress-free slip on the radiation line, `s = 0`).  Otherwise, if the
elastic traction magnitude is below the current strength the point is
Locked (`v = 0`, traction passes through unchanged); otherwise the point
slips with traction pinned to the strength curve and `v` given by the
closed-form intersection with the radiation-damping line. -/
def solve_fs (nominal phi eta snc : ℚ) : boundchar :=
  if snc ≤ 0 then { v := phi / eta, s := 0 }
  else
    let st := effectiveStrength nominal snc
    if phi < st then { v := 0, s := phi }
    else { v := (phi - st) / eta, s := st }

/-- Decimal digit characters of `n`, most significant first
(`fuel`-structural so that it evaluates in the kernel; `fuel > n` is always
enough, see `natChars_fuel_indep`). -/
def natChars : Nat → Nat → List Char
  | 0, _ => []
  | fuel + 1, n =>
    if n < 10 then [Char.ofNat (48 + n)]
    else natChars fuel (n / 10) ++ [Char.ofNat (48 + n % 10)]

/-- Decimal rendering of a natural number. -/
def natToChars (n : Nat) : List Char := natChars (n + 1) n

/-- Decimal rendering of an integer (minus sign for negatives). -/
def intToChars (v : Int) : List Char :=
  if v < 0 then '-' :: natToChars (-v).toNat else natToChars v.toNat

/-- One declaration of the output-list input section: a unit name and the
fixed-shape tuple of a field identifier, the temporal window start/stop/
stride, and a spatial window start/stop/stride per dimension. -/
structure Decl where
  name : String
  field : String
  tm : Int
  tp : Int
  ts : Int
  xm0 : Int
  xp0 : Int
  xs0 : Int
  xm1 : Int
  xp1 : Int
  xs1 : Int
  xm2 : Int
  xp2 : Int
  xs2 : Int
deriving DecidableEq

/-- A value representable by the C++ `int` targets of the constructor. -/
def inIntRange (v : Int) : Prop := intMin ≤ v ∧ v ≤ intMax

/-- Well-formedness of a declaration: a non-empty single-line name, a
non-empty whitespace-free field token, and window parameters representable
in the C++ `int` locals they are read into (outside that range, real
extraction clamps the value and sets `failbit`). -/
def wfDecl (d : Decl) : Prop :=
  d.name.data ≠ [] ∧ (∀ c ∈ d.name.data, c ≠ '\n') ∧
  d.field.data ≠ [] ∧ (∀ c ∈ d.field.data, isWS c = false) ∧
  (∀ v ∈ [d.tm, d.tp, d.ts, d.xm0, d.xp0, d.xs0, d.xm1, d.xp1, d.xs1,
    d.xm2, d.xp2, d.xs2], inIntRange v)

instance inIntRange_decidable (v : Int) : Decidable (inIntRange v) := by
  unfold inIntRange
  infer_instance

instance wfDecl_decidable (d : Decl) : Decidable (wfDecl d) := by
  unfold wfDecl
  infer_instance

/-- The token line of one rendered declaration followed by `rest`: the
thirteen space-separated tokens in the order the constructor reads them,
then the newline ending the token line. -/
def tokensFrom (d : Decl) (rest : List Char) : List Char :=
  d.field.data ++ ' ' :: (intToChars d.tm ++ ' ' :: (intToChars d.tp ++
    ' ' :: (intToChars d.ts ++ ' ' :: (intToChars d.xm0 ++ ' ' :: (intToChars d.xp0 ++
    ' ' :: (intToChars d.xs0 ++ ' ' :: (intToChars d.xm1 ++ ' ' :: (intToChars d.xp1 ++
    ' ' :: (intToChars d.xs1 ++ ' ' :: (intToChars d.xm2 ++ ' ' :: (intToChars d.xp2 ++
    ' ' :: (intToChars d.xs2 ++ '\n' :: rest))))))))))))

/-- The rendered declarations (name line, then token line, for each
declaration in order) followed by `tail`. -/
def renderDecls : List Decl → List Char → List Char
  | [], tail => tail
  | d :: ds, tail => d.name.data ++ '\n' :: tokensFrom d (renderDecls ds tail)

/-- The rendered preamble lines followed by `tail`. -/
def renderPre : List String → List Char → List Char
  | [], tail => tail
  | l :: ls, tail => l.data ++ '\n' :: renderPre ls tail

/-- The output unit a declaration describes (all parameter fields read
successfully; file not yet opened). -/
def declUnit (d : Decl) : outputunit :=
  ⟨d.name, d.field, some d.tm, some d.tp, some d.ts,
    (some d.xm0, some d.xm1, some d.xm2), (some d.xp0, some d.xp1, some d.xp2),
    (some d.xs0, some d.xs1, some d.xs2), false⟩

/-- The constructor's local variables after one declaration has been read
successfully. -/
def declLocals (d : Decl) : LocalVars :=
  ⟨d.field, some d.tm, some d.tp, some d.ts, some d.xm0, some d.xp0, some d.xs0,
    some d.xm1, some d.xp1, some d.xs1, some d.xm2, some d.xp2, some d.xs2⟩

/-- A full rendered input file: arbitrary preamble lines, the marker line,
the rendered declarations, the blank terminator line, and arbitrary
trailing content. -/
def renderInput (pre : List String) (ds : List Decl) (suffix : String) : List Char :=
  renderPre pre (markerLine.data ++ '\n' :: renderDecls ds ('\n' :: suffix.data))

/-- The lines of a character sequence under `getline` semantics: splitting
at each newline, with no empty final line for a trailing newline
(`fuel`-structural; `fuel > length` is always enough). -/
def linesOfF : Nat → List Char → List (List Char)
  | 0, _ => []
  | _ + 1, [] => []
  | fuel + 1, c :: cs =>
    let r := splitLine (c :: cs)
    r.1 :: linesOfF fuel r.2.1

/-- The lines of a character sequence. -/
def linesOf (cs : List Char) : List (List Char) := linesOfF (cs.length + 1) cs

/-! Length bounds: every stream operation consumes characters, and a
successful `getline` consumes at least one.  These justify the fuel bounds
used by `outputlist_ctor`. -/

theorem splitLine_le (cs : List Char) : (splitLine cs).2.1.length ≤ cs.length := by
  induction cs with
  | nil => simp [splitLine]
  | cons c cs ih =>
    simp only [splitLine]
    split
    · simp
    · simpa using Nat.le_succ_of_le ih

theorem splitLine_lt (c : Char) (cs : List Char) :
    (splitLine (c :: cs)).2.1.length < (c :: cs).length := by
  simp only [splitLine]
  split
  · simp
  · simpa using Nat.lt_succ_of_le (splitLine_le cs)

theorem getline_le (s : IStream) : (getline s).1.chars.length ≤ s.chars.length := by
  unfold getline
  split
  · simp
  · match hc : s.chars with
    | [] => simp [hc]
    | c :: cs => simpa [hc] using Nat.le_of_lt (splitLine_lt c cs)

theorem getline_some_lt {s s2 : IStream} {l : List Char}
    (h : getline s = (s2, some l)) : s2.chars.length < s.chars.length := by
  unfold getline at h
  split at h
  · simp at h
  · match hc : s.chars, h with
    | [], h => simp at h
    | c :: cs, h =>
      have h2 : s2.chars = (splitLine (c :: cs)).2.1 := by
        have := congrArg (fun p => (Prod.fst p).chars) h
        simpa using this.symm
      rw [h2]
      exact splitLine_lt c cs

theorem dropWS_le (cs : List Char) : (dropWS cs).length ≤ cs.length := by
  induction cs with
  | nil => simp [dropWS]
  | cons c cs ih =>
    simp only [dropWS]
    split
    · exact Nat.le_succ_of_le ih
    · simp

theorem takeTok_le (cs : List Char) : (takeTok cs).2.length ≤ cs.length := by
  induction cs with
  | nil => simp [takeTok]
  | cons c cs ih =>
    simp only [takeTok]
    split
    · simp
    · simpa using Nat.le_succ_of_le ih

theorem takeDigits_le (cs : List Char) : (takeDigits cs).2.length ≤ cs.length := by
  induction cs with
  | nil => simp [takeDigits]
  | cons c cs ih =>
    simp only [takeDigits]
    split
    · simpa using Nat.le_succ_of_le ih
    · simp

theorem extractStr_le (s : IStream) (cur : String) :
    (extractStr s cur).1.chars.length ≤ s.chars.length := by
  unfold extractStr
  split
  · simp
  · match hd : dropWS s.chars with
    | [] => simp
    | c :: cs =>
      simp only
      calc (takeTok (c :: cs)).2.length ≤ (c :: cs).length := takeTok_le _
        _ = (dropWS s.chars).length := by rw [hd]
        _ ≤ s.chars.length := dropWS_le _

theorem extractInt_le (s : IStream) (cur : Option Int) :
    (extractInt s cur).1.chars.length ≤ s.chars.length := by
  unfold extractInt
  split
  · simp
  · match hd : dropWS s.chars with
    | [] => simp
    | c :: cs =>
      have hsr : (signSplit c cs).2.length ≤ (c :: cs).length := by
        unfold signSplit
        split
        · simp
        · split <;> simp
      have h1 : (takeDigits (signSplit c cs).2).2.length ≤ s.chars.length :=
        calc (takeDigits (signSplit c cs).2).2.length
            ≤ (signSplit c cs).2.length := takeDigits_le _
          _ ≤ (c :: cs).length := hsr
          _ = (dropWS s.chars).length := by rw [hd]
          _ ≤ s.chars.length := dropWS_le _
      simp only
      split <;> try split <;> try split <;> try split
      all_goals simpa using h1

theorem readUnitBody_le (s : IStream) (lv : LocalVars) (nm : String) :
    (readUnitBody s lv nm).1.chars.length ≤ s.chars.length := by
  unfold readUnitBody
  simp only
  calc (getline _).1.chars.length
      ≤ _ := getline_le _
    _ ≤ _ := extractInt_le _ _
    _ ≤ _ := extractInt_le _ _
    _ ≤ _ := extractInt_le _ _
    _ ≤ _ := extractInt_le _ _
    _ ≤ _ := extractInt_le _ _
    _ ≤ _ := extractInt_le _ _
    _ ≤ _ := extractInt_le _ _
    _ ≤ _ := extractInt_le _ _
    _ ≤ _ := extractInt_le _ _
    _ ≤ _ := extractInt_le _ _
    _ ≤ _ := extractInt_le _ _
    _ ≤ _ := extractInt_le _ _
    _ ≤ s.chars.length := extractStr_le _ _

/-! Fuel independence: the loop fuels used by `outputlist_ctor` are never
exhausted, so the fueled loops agree with the C++ `while` loops. -/

theorem readUnitsF_fuel_indep :
    ∀ f g : Nat, ∀ s lv acc, s.chars.length < f → s.chars.length < g →
      readUnitsF f s lv acc = readUnitsF g s lv acc := by
  intro f
  induction f with
  | zero => intro g s lv acc hf; omega
  | succ f ih =>
    intro g s lv acc hf hg
    match g, hg with
    | g + 1, hg =>
      simp only [readUnitsF]
      match hgl : getline s with
      | (s2, none) => simp
      | (s2, some l) =>
        simp only
        split
        · rfl
        · have hlt := getline_some_lt hgl
          have hble := readUnitBody_le s2 lv (String.mk l)
          exact ih g _ _ _ (by omega) (by omega)

theorem scanToMarkerF_fuel_indep :
    ∀ f g : Nat, ∀ s, s.chars.length < f → s.chars.length < g →
      scanToMarkerF f s = scanToMarkerF g s := by
  intro f
  induction f with
  | zero => intro g s hf; omega
  | succ f ih =>
    intro g s hf hg
    match g, hg with
    | g + 1, hg =>
      simp only [scanToMarkerF]
      match hgl : getline s with
      | (s2, none) => simp
      | (s2, some l) =>
        simp only
        split
        · rfl
        · have hlt := getline_some_lt hgl
          exact ih g _ (by omega) (by omega)

theorem linesOfF_fuel_indep :
    ∀ f g : Nat, ∀ cs : List Char, cs.length < f → cs.length < g →
      linesOfF f cs = linesOfF g cs := by
  intro f
  induction f with
  | zero => intro g cs hf; omega
  | succ f ih =>
    intro g cs hf hg
    match g, hg with
    | g + 1, hg =>
      match cs with
      | [] => simp [linesOfF]
      | c :: cs =>
        simp only [linesOfF]
        have hlt := splitLine_lt c cs
        rw [ih g _ (by simp at hf hlt ⊢; omega) (by simp at hg hlt ⊢; omega)]

theorem natChars_eq_natToChars :
    ∀ f n : Nat, n < f → natChars f n = natToChars n := by
  intro f
  induction f using Nat.strong_induction_on with
  | _ f ih =>
    intro n hn
    match f, hn with
    | f + 1, hn =>
      by_cases h10 : n < 10
      · simp [natChars, natToChars, h10]
      · have hdiv : n / 10 < n := Nat.div_lt_self (by omega) (by omega)
        have h1 : natChars (f + 1) n = natChars f (n / 10) ++ [Char.ofNat (48 + n % 10)] := by
          simp [natChars, h10]
        have h2 : natToChars n = natChars n (n / 10) ++ [Char.ofNat (48 + n % 10)] := by
          simp [natToChars, natChars, h10]
        rcases Nat.lt_or_ge (n / 10) f with hf | hf
        · rw [h1, h2, ih f (by omega) _ hf, ih n (by omega) _ hdiv]
        · -- n / 10 < n ≤ f is forced, since n < f + 1 and n / 10 < n
          have : n ≤ f := by omega
          rw [h1, h2, ih f (by omega) _ (by omega), ih n (by omega) _ hdiv]

/-! Character classification and parse-step lemmas. -/

theorem ws_not_digit {c : Char} (h : isWS c = true) : c.isDigit = false := by
  simp [isWS] at h
  rcases h with ((((h | h) | h) | h) | h) | h <;> subst h <;> decide

theorem digit_not_ws {c : Char} (h : c.isDigit = true) : isWS c = false := by
  simp only [isWS]
  have h1 : c ≠ ' ' := by rintro rfl; simp at h
  have h2 : c ≠ '\t' := by rintro rfl; simp at h
  have h3 : c ≠ '\n' := by rintro rfl; simp at h
  have h4 : c ≠ '\x0b' := by rintro rfl; simp at h
  have h5 : c ≠ '\x0c' := by rintro rfl; simp at h
  have h6 : c ≠ '\r' := by rintro rfl; simp at h
  simp [h1, h2, h3, h4, h5, h6]

theorem digit_char_facts : ∀ d, d < 10 →
    ((Char.ofNat (48 + d)).isDigit = true ∧ (Char.ofNat (48 + d)).toNat = 48 + d) := by
  decide

theorem splitLine_no_nl {l : List Char} (h : ∀ c ∈ l, c ≠ '\n') :
    splitLine l = (l, [], false) := by
  induction l with
  | nil => simp [splitLine]
  | cons c cs ih =>
    have hc : c ≠ '\n' := h c (by simp)
    simp [splitLine, hc, ih fun x hx => h x (by simp [hx])]

theorem splitLine_append {l : List Char} (r : List Char) (h : ∀ c ∈ l, c ≠ '\n') :
    splitLine (l ++ '\n' :: r) = (l, r, true) := by
  induction l with
  | nil => simp [splitLine]
  | cons c cs ih =>
    have hc : c ≠ '\n' := h c (by simp)
    simp [splitLine, hc, ih fun x hx => h x (by simp [hx])]

theorem getline_line (l r : List Char) (h : ∀ c ∈ l, c ≠ '\n') :
    getline ⟨l ++ '\n' :: r, false, false⟩ = (⟨r, false, false⟩, some l) := by
  have hsp := splitLine_append r h
  cases l with
  | nil => simp_all [getline]
  | cons a l => simp_all [getline]

theorem getline_last (l : List Char) (hne : l ≠ []) (h : ∀ c ∈ l, c ≠ '\n') :
    getline ⟨l, false, false⟩ = (⟨[], false, true⟩, some l) := by
  have hsp := splitLine_no_nl h
  cases l with
  | nil => exact absurd rfl hne
  | cons a l => simp_all [getline]

theorem getline_none (fb eb : Bool) (cs : List Char) :
    getline ⟨cs, fb, true⟩ = (⟨cs, true, true⟩, none)
      ∧ getline ⟨cs, true, eb⟩ = (⟨cs, true, eb⟩, none)
      ∧ getline ⟨[], false, false⟩ = (⟨[], true, true⟩, none) := by
  refine ⟨by simp [getline], by simp [getline], by simp [getline]⟩

theorem dropWS_cons {c : Char} (cs : List Char) (h : isWS c = false) :
    dropWS (c :: cs) = c :: cs := by
  simp [dropWS, h]

theorem takeTok_append {t : List Char} (w : Char) (r : List Char)
    (ht : ∀ c ∈ t, isWS c = false) (hw : isWS w = true) :
    takeTok (t ++ w :: r) = (t, w :: r) := by
  induction t with
  | nil => simp [takeTok, hw]
  | cons c cs ih =>
    have hc : isWS c = false := ht c (by simp)
    simp [takeTok, hc, ih fun x hx => ht x (by simp [hx])]

theorem takeDigits_append {t : List Char} (w : Char) (r : List Char)
    (ht : ∀ c ∈ t, c.isDigit = true) (hw : w.isDigit = false) :
    takeDigits (t ++ w :: r) = (t, w :: r) := by
  induction t with
  | nil => simp [takeDigits, hw]
  | cons c cs ih =>
    have hc : c.isDigit = true := ht c (by simp)
    simp [takeDigits, hc, ih fun x hx => ht x (by simp [hx])]

theorem signSplit_digit {c : Char} (cs : List Char) (h : c.isDigit = true) :
    signSplit c cs = (false, c :: cs) := by
  have h1 : c ≠ '-' := by rintro rfl; simp at h
  have h2 : c ≠ '+' := by rintro rfl; simp at h
  simp [signSplit, h1, h2]

theorem natChars_digits : ∀ f n : Nat, ∀ c ∈ natChars f n, c.isDigit = true := by
  intro f
  induction f with
  | zero => intro n c hc; simp [natChars] at hc
  | succ f ih =>
    intro n c hc
    simp only [natChars] at hc
    split at hc
    · simp at hc
      subst hc
      exact (digit_char_facts n (by omega)).1
    · rcases List.mem_append.mp hc with h | h
      · exact ih _ c h
      · simp at h
        subst h
        exact (digit_char_facts (n % 10) (by omega)).1

theorem natToChars_ne_nil (n : Nat) : natToChars n ≠ [] := by
  simp only [natToChars, natChars]
  split
  · simp
  · simp

theorem digitsToNat_append (ds : List Char) (c : Char) :
    digitsToNat (ds ++ [c]) = 10 * digitsToNat ds + (c.toNat - 48) := by
  simp [digitsToNat, List.foldl_append]

theorem digitsToNat_natToChars (n : Nat) : digitsToNat (natToChars n) = n := by
  induction n using Nat.strong_induction_on with
  | _ n ih =>
    by_cases h10 : n < 10
    · simp [natToChars, natChars, h10, digitsToNat]
      have := (digit_char_facts n h10).2
      omega
    · have hdiv : n / 10 < n := Nat.div_lt_self (by omega) (by omega)
      have h1 : natToChars n = natChars n (n / 10) ++ [Char.ofNat (48 + n % 10)] := by
        simp [natToChars, natChars, h10]
      rw [h1, natChars_eq_natToChars n (n / 10) hdiv, digitsToNat_append,
        ih (n / 10) hdiv, (digit_char_facts (n % 10) (by omega)).2]
      omega

theorem extractStr_tok (t : List Char) (w : Char) (r : List Char) (cur : String)
    (hne : t ≠ []) (ht : ∀ c ∈ t, isWS c = false) (hw : isWS w = true) :
    extractStr ⟨t ++ w :: r, false, false⟩ cur = (⟨w :: r, false, false⟩, String.mk t) := by
  cases t with
  | nil => exact absurd rfl hne
  | cons a t =>
    have ha : isWS a = false := ht a (by simp)
    have hdw : dropWS ((a :: t) ++ w :: r) = a :: (t ++ w :: r) := by
      simpa using dropWS_cons (t ++ w :: r) ha
    have htk := takeTok_append w r ht hw
    simp only [extractStr, Bool.or_self, Bool.false_eq_true, if_false, List.cons_append] at *
    rw [hdw]
    simp [htk]

theorem extractInt_tok (v : Int) (w : Char) (r : List Char) (cur : Option Int)
    (hw : isWS w = true) (hr : inIntRange v) :
    extractInt ⟨' ' :: (intToChars v ++ w :: r), false, false⟩ cur
      = (⟨w :: r, false, false⟩, some v) := by
  have hwd : w.isDigit = false := ws_not_digit hw
  obtain ⟨hrl, hru⟩ := hr
  rcases Int.lt_or_le v 0 with hv | hv
  · -- negative: a leading minus sign, then the digits of -v
    have hit : intToChars v = '-' :: natToChars (-v).toNat := by simp [intToChars, hv]
    obtain ⟨a, t, hat⟩ : ∃ a t, natToChars (-v).toNat = a :: t := by
      cases h : natToChars (-v).toNat with
      | nil => exact absurd h (natToChars_ne_nil _)
      | cons a t => exact ⟨a, t, rfl⟩
    have hdigits : ∀ c ∈ natToChars (-v).toNat, c.isDigit = true := by
      intro c hc
      exact natChars_digits _ _ c hc
    have htd := takeDigits_append w r hdigits hwd
    have hval : digitsToNat (natToChars (-v).toNat) = (-v).toNat := digitsToNat_natToChars _
    simp only [extractInt, Bool.or_self, Bool.false_eq_true, if_false]
    have hdw : dropWS (' ' :: (intToChars v ++ w :: r)) = intToChars v ++ w :: r := by
      have h1 : dropWS (' ' :: (intToChars v ++ w :: r)) = dropWS (intToChars v ++ w :: r) := by
        simp [dropWS, isWS]
      rw [h1, hit, List.cons_append]
      exact dropWS_cons _ (by decide)
    rw [hdw, hit, List.cons_append]
    have hss : signSplit '-' (natToChars (-v).toNat ++ w :: r)
        = (true, natToChars (-v).toNat ++ w :: r) := by simp [signSplit]
    simp only [hss, htd]
    have hne : (natToChars (-v).toNat).isEmpty = false := by
      rw [hat]; rfl
    simp only [hne, Bool.false_eq_true, if_false, hval, reduceIte]
    have h0 : (((-v).toNat : Int)) = -v := Int.toNat_of_nonneg (by omega)
    have hveq : -Int.ofNat ((-v).toNat) = v := by
      rw [Int.ofNat_eq_natCast, h0]
      ring
    rw [hveq, if_neg (not_lt.mpr hrl), if_neg (not_lt.mpr hru)]
    simp
  · -- non-negative: just the digits of v
    have hit : intToChars v = natToChars v.toNat := by
      simp [intToChars, Int.not_lt.mpr hv]
    obtain ⟨a, t, hat⟩ : ∃ a t, natToChars v.toNat = a :: t := by
      cases h : natToChars v.toNat with
      | nil => exact absurd h (natToChars_ne_nil _)
      | cons a t => exact ⟨a, t, rfl⟩
    have hdigits : ∀ c ∈ natToChars v.toNat, c.isDigit = true := by
      intro c hc
      exact natChars_digits _ _ c hc
    have ha : a.isDigit = true := by
      refine hdigits a ?_
      rw [hat]; simp
    have htd := takeDigits_append w r hdigits hwd
    have hval : digitsToNat (natToChars v.toNat) = v.toNat := digitsToNat_natToChars _
    simp only [extractInt, Bool.or_self, Bool.false_eq_true, if_false]
    have hdw : dropWS (' ' :: (intToChars v ++ w :: r)) = a :: (t ++ w :: r) := by
      have h1 : dropWS (' ' :: (intToChars v ++ w :: r)) = dropWS (intToChars v ++ w :: r) := by
        simp [dropWS, isWS]
      rw [h1, hit, hat, List.cons_append]
      exact dropWS_cons _ (digit_not_ws ha)
    rw [hdw]
    simp only [signSplit_digit _ ha]
    rw [show a :: (t ++ w :: r) = (a :: t) ++ w :: r by simp, ← hat, htd]
    have hne : (natToChars v.toNat).isEmpty = false := by
      rw [hat]; rfl
    simp only [hne, Bool.false_eq_true, if_false, hval, reduceIte]
    have hveq : Int.ofNat (v.toNat) = v := by
      rw [Int.ofNat_eq_natCast]
      exact Int.toNat_of_nonneg hv
    rw [hveq, if_neg (not_lt.mpr hrl), if_neg (not_lt.mpr hru)]
    simp

theorem getline_blank (r : List Char) :
    getline ⟨'\n' :: r, false, false⟩ = (⟨r, false, false⟩, some []) := by
  simpa using getline_line [] r (by simp)

theorem mkData (s : String) : String.mk s.data = s := rfl

theorem readUnitBody_tokens (d : Decl) (hd : wfDecl d) (rest : List Char)
    (lv : LocalVars) (nm : String) :
    readUnitBody ⟨tokensFrom d rest, false, false⟩ lv nm
      = (⟨rest, false, false⟩, declLocals d,
          ⟨nm, d.field, some d.tm, some d.tp, some d.ts,
            (some d.xm0, some d.xm1, some d.xm2), (some d.xp0, some d.xp1, some d.xp2),
            (some d.xs0, some d.xs1, some d.xs2), false⟩) := by
  obtain ⟨hn1, hn2, hf1, hf2, hr⟩ := hd
  simp only [readUnitBody, tokensFrom]
  rw [extractStr_tok d.field.data ' ' _ lv.field hf1 hf2 (by decide)]
  rw [extractInt_tok d.tm ' ' _ lv.tm (by decide) (hr d.tm (by simp))]
  rw [extractInt_tok d.tp ' ' _ lv.tp (by decide) (hr d.tp (by simp))]
  rw [extractInt_tok d.ts ' ' _ lv.ts (by decide) (hr d.ts (by simp))]
  rw [extractInt_tok d.xm0 ' ' _ lv.xm0 (by decide) (hr d.xm0 (by simp))]
  rw [extractInt_tok d.xp0 ' ' _ lv.xp0 (by decide) (hr d.xp0 (by simp))]
  rw [extractInt_tok d.xs0 ' ' _ lv.xs0 (by decide) (hr d.xs0 (by simp))]
  rw [extractInt_tok d.xm1 ' ' _ lv.xm1 (by decide) (hr d.xm1 (by simp))]
  rw [extractInt_tok d.xp1 ' ' _ lv.xp1 (by decide) (hr d.xp1 (by simp))]
  rw [extractInt_tok d.xs1 ' ' _ lv.xs1 (by decide) (hr d.xs1 (by simp))]
  rw [extractInt_tok d.xm2 ' ' _ lv.xm2 (by decide) (hr d.xm2 (by simp))]
  rw [extractInt_tok d.xp2 ' ' _ lv.xp2 (by decide) (hr d.xp2 (by simp))]
  rw [extractInt_tok d.xs2 '\n' _ lv.xs2 (by decide) (hr d.xs2 (by simp))]
  rw [getline_blank]
  simp [declLocals, mkData]

theorem tokensFrom_length (d : Decl) (rest : List Char) :
    rest.length + 2 ≤ (tokensFrom d rest).length := by
  simp [tokensFrom]
  omega

theorem readUnitsF_render (ds : List Decl) (hds : ∀ d ∈ ds, wfDecl d)
    (tail : List Char) (lv : LocalVars) (acc : List outputunit) (fuel : Nat)
    (hf : (renderDecls ds ('\n' :: tail)).length < fuel) :
    readUnitsF fuel ⟨renderDecls ds ('\n' :: tail), false, false⟩ lv acc
      = (⟨tail, false, false⟩, acc ++ ds.map declUnit) := by
  induction ds generalizing lv acc fuel with
  | nil =>
    match fuel, hf with
    | fuel + 1, _ =>
      simp only [renderDecls] at *
      simp only [readUnitsF, getline_blank]
      simp
  | cons d ds ih =>
    match fuel, hf with
    | fuel + 1, hf =>
      obtain ⟨hn1, hn2, _, _⟩ := hds d (by simp)
      simp only [renderDecls] at hf ⊢
      have hgl := getline_line d.name.data (tokensFrom d (renderDecls ds ('\n' :: tail))) hn2
      simp only [readUnitsF, hgl]
      have hne : d.name.data.isEmpty = false := by
        cases h : d.name.data with
        | nil => exact absurd h hn1
        | cons a t => rfl
      simp only [hne, Bool.false_eq_true, if_false]
      rw [readUnitBody_tokens d (hds d (by simp)) _ lv (String.mk d.name.data)]
      simp only [mkData]
      rw [ih (fun x hx => hds x (by simp [hx])) (declLocals d) _ fuel ?hlen]
      case hlen =>
        have := tokensFrom_length d (renderDecls ds ('\n' :: tail))
        simp only [List.length_append, List.length_cons] at hf
        omega
      simp [declUnit]

theorem marker_no_nl : ∀ c ∈ markerLine.data, c ≠ '\n' := by decide

theorem scanToMarkerF_render (pre : List String)
    (hpre : ∀ l ∈ pre, (∀ c ∈ l.data, c ≠ '\n') ∧ l ≠ markerLine)
    (tail : List Char) (fuel : Nat)
    (hf : (renderPre pre (markerLine.data ++ '\n' :: tail)).length < fuel) :
    scanToMarkerF fuel ⟨renderPre pre (markerLine.data ++ '\n' :: tail), false, false⟩
      = ⟨tail, false, false⟩ := by
  induction pre generalizing fuel with
  | nil =>
    match fuel, hf with
    | fuel + 1, _ =>
      simp only [renderPre] at *
      have hgl := getline_line markerLine.data tail marker_no_nl
      simp only [scanToMarkerF, hgl, mkData]
      simp
  | cons l ls ih =>
    match fuel, hf with
    | fuel + 1, hf =>
      obtain ⟨hnl, hnem⟩ := hpre l (by simp)
      simp only [renderPre] at hf ⊢
      have hgl := getline_line l.data (renderPre ls (markerLine.data ++ '\n' :: tail)) hnl
      simp only [scanToMarkerF, hgl, mkData]
      rw [if_neg hnem]
      refine ih (fun x hx => hpre x (by simp [hx])) fuel ?_
      simp only [List.length_append, List.length_cons] at hf
      omega

theorem getline_cons (s : IStream) (c : Char) (cs : List Char) (hf : s.failb = false)
    (he : s.eofb = false) (hc : s.chars = c :: cs) :
    getline s = (⟨(splitLine (c :: cs)).2.1, false, !(splitLine (c :: cs)).2.2⟩,
      some (splitLine (c :: cs)).1) := by
  simp [getline, hf, he, hc]

theorem scanToMarkerF_eofb (s : IStream) (he : s.eofb = true) :
    ∀ fuel, (scanToMarkerF fuel s).eofb = true := by
  intro fuel
  cases fuel with
  | zero => exact he
  | succ fuel => simp [scanToMarkerF, getline, he]

theorem linesOf_cons (c : Char) (cs : List Char) :
    linesOf (c :: cs) = (splitLine (c :: cs)).1 :: linesOf (splitLine (c :: cs)).2.1 := by
  simp only [linesOf, linesOfF]
  rw [linesOfF_fuel_indep (c :: cs).length ((splitLine (c :: cs)).2.1.length + 1) _
    (splitLine_lt c cs) (Nat.lt_succ_self _)]

theorem scan_no_marker :
    ∀ fuel (s : IStream), s.chars.length < fuel → s.failb = false → s.eofb = false →
      (∀ l ∈ linesOf s.chars, String.mk l ≠ markerLine) →
      (scanToMarkerF fuel s).eofb = true := by
  intro fuel
  induction fuel with
  | zero => intro s hf; omega
  | succ fuel ih =>
    intro s hf hfb heb hl
    cases hc : s.chars with
    | nil => simp [scanToMarkerF, getline, hfb, heb, hc]
    | cons c cs =>
      have hgl := getline_cons s c cs hfb heb hc
      have hhead : String.mk (splitLine (c :: cs)).1 ≠ markerLine := by
        refine hl _ ?_
        rw [hc, linesOf_cons]
        simp
      simp only [scanToMarkerF, hgl, if_neg hhead]
      cases hb : (splitLine (c :: cs)).2.2 with
      | false =>
        exact scanToMarkerF_eofb _ (by simp [hb]) fuel
      | true =>
        refine ih _ ?_ rfl (by simp [hb]) ?_
        · have := splitLine_lt c cs
          simp only []
          rw [hc] at hf
          simp at hf this ⊢
          omega
        · intro l hml
          refine hl l ?_
          rw [hc, linesOf_cons]
          simp [hml]

theorem extract_failed (s : IStream) (he : s.failb = true ∨ s.eofb = true)
    (cur : String) (curi : Option Int) :
    extractStr s cur = ({ s with failb := true }, cur)
      ∧ extractInt s curi = ({ s with failb := true }, curi) := by
  rcases he with he | he
  · constructor <;> simp [extractStr, extractInt, he]
  · constructor <;> simp [extractStr, extractInt, he]

theorem readUnitBody_failed (s : IStream) (he : s.failb = true ∨ s.eofb = true)
    (lv : LocalVars) (nm : String) :
    readUnitBody s lv nm
      = ({ s with failb := true }, lv,
          ⟨nm, lv.field, lv.tm, lv.tp, lv.ts, (lv.xm0, lv.xm1, lv.xm2),
            (lv.xp0, lv.xp1, lv.xp2), (lv.xs0, lv.xs1, lv.xs2), false⟩) := by
  have hs2 : ({ s with failb := true } : IStream).failb = true ∨
      ({ s with failb := true } : IStream).eofb = true := Or.inl rfl
  have e1 := (extract_failed s he lv.field lv.tm).1
  have e2 := (extract_failed { s with failb := true } hs2 lv.field lv.tm).2
  have e3 := (extract_failed { s with failb := true } hs2 lv.field lv.tp).2
  have e4 := (extract_failed { s with failb := true } hs2 lv.field lv.ts).2
  have e5 := (extract_failed { s with failb := true } hs2 lv.field lv.xm0).2
  have e6 := (extract_failed { s with failb := true } hs2 lv.field lv.xp0).2
  have e7 := (extract_failed { s with failb := true } hs2 lv.field lv.xs0).2
  have e8 := (extract_failed { s with failb := true } hs2 lv.field lv.xm1).2
  have e9 := (extract_failed { s with failb := true } hs2 lv.field lv.xp1).2
  have e10 := (extract_failed { s with failb := true } hs2 lv.field lv.xs1).2
  have e11 := (extract_failed { s with failb := true } hs2 lv.field lv.xm2).2
  have e12 := (extract_failed { s with failb := true } hs2 lv.field lv.xp2).2
  have e13 := (extract_failed { s with failb := true } hs2 lv.field lv.xs2).2
  have e14 : getline { s with failb := true } = ({ s with failb := true }, none) := by
    simp [getline]
  simp only [readUnitBody, e1, e2, e3, e4, e5, e6, e7, e8, e9, e10, e11, e12, e13, e14]

theorem ctor_open (contents probname datadir : String) (nt : Int) :
    outputlist_ctor true contents probname datadir nt
      = if (scanToMarkerF (contents.data.length + 1) ⟨contents.data, false, false⟩).eofb
        then CtorResult.fatal "Error reading outputlist from input file\n"
        else CtorResult.ok (readUnitsF
          ((scanToMarkerF (contents.data.length + 1)
              ⟨contents.data, false, false⟩).chars.length + 1)
          (scanToMarkerF (contents.data.length + 1) ⟨contents.data, false, false⟩)
          initLocals []).2 := rfl

/-- Claim C2: for every well-formed input file (arbitrary preamble lines
before the marker, then well-formed declarations — non-empty single-line
name, non-empty whitespace-free field token, window parameters
representable in the C++ `int` locals they are read into — then the blank
terminator, then arbitrary trailing content), `outputlist::outputlist`
appends one output unit to the tail of the list per declaration, so the
constructed list consists of exactly the declared units in declaration
order. -/
theorem C2_construction_appends_in_order (pre : List String) (ds : List Decl)
    (suffix probname datadir : String) (nt : Int)
    (hpre : ∀ l ∈ pre, (∀ c ∈ l.data, c ≠ '\n') ∧ l ≠ markerLine)
    (hds : ∀ d ∈ ds, wfDecl d) :
    outputlist_ctor true (String.mk (renderInput pre ds suffix)) probname datadir nt
      = CtorResult.ok (ds.map declUnit) := by
  rw [ctor_open]
  have hdata : (String.mk (renderInput pre ds suffix)).data
      = renderPre pre (markerLine.data ++ '\n' :: renderDecls ds ('\n' :: suffix.data)) := rfl
  rw [hdata]
  rw [scanToMarkerF_render pre hpre (renderDecls ds ('\n' :: suffix.data)) _
    (Nat.lt_succ_self _)]
  have heq : (⟨renderDecls ds ('\n' :: suffix.data), false, false⟩ : IStream).eofb
      = false := rfl
  rw [heq]
  simp only [Bool.false_eq_true, if_false]
  rw [readUnitsF_render ds hds suffix.data initLocals [] _ (Nat.lt_succ_self _)]
  simp

/-- Witness for C2 at a concrete two-declaration input. -/
theorem C2_construction_appends_in_order_witness :
    (∀ l ∈ ["head"], (∀ c ∈ String.data l, c ≠ '\n') ∧ l ≠ markerLine)
    ∧ (∀ d ∈ [(⟨"u1", "vx", 0, 10, 2, 0, 5, 1, 0, 6, 1, 0, 7, 1⟩ : Decl),
              ⟨"u2", "vy", 1, -11, 3, 9, 8, 7, 6, 5, 4, 3, 2, 1⟩], wfDecl d)
    ∧ outputlist_ctor true
        (String.mk (renderInput ["head"]
          [⟨"u1", "vx", 0, 10, 2, 0, 5, 1, 0, 6, 1, 0, 7, 1⟩,
           ⟨"u2", "vy", 1, -11, 3, 9, 8, 7, 6, 5, 4, 3, 2, 1⟩] "trailing")) "p" "dd" 4
      = CtorResult.ok
          [⟨"u1", "vx", some 0, some 10, some 2, (some 0, some 0, some 0),
            (some 5, some 6, some 7), (some 1, some 1, some 1), false⟩,
           ⟨"u2", "vy", some 1, some (-11), some 3, (some 9, some 6, some 3),
            (some 8, some 5, some 2), (some 7, some 4, some 1), false⟩] := by
  refine ⟨by decide, by decide, ?_⟩
  exact C2_construction_appends_in_order ["head"]
    [⟨"u1", "vx", 0, 10, 2, 0, 5, 1, 0, 6, 1, 0, 7, 1⟩,
     ⟨"u2", "vy", 1, -11, 3, 9, 8, 7, 6, 5, 4, 3, 2, 1⟩] "trailing" "p" "dd" 4
    (by decide) (by decide)

/-- Claim C6: reading of the output-list section stops at the first blank
line after the marker: an input of the marker line, one well-formed
declaration (a non-empty single-line name, then the 13 whitespace-separated
tokens: a whitespace-free field and `int`-representable window values), a
blank terminator line and arbitrary further content yields the one-element
list carrying the declared name, field and window parameters, and nothing
after the blank line is consumed as a declaration (the result does not
depend on `suffix`). -/
theorem C6_single_declaration_stops_at_blank (nm fl : String)
    (tm tp ts xm0 xp0 xs0 xm1 xp1 xs1 xm2 xp2 xs2 : Int)
    (suffix probname datadir : String) (nt : Int)
    (hn1 : nm.data ≠ []) (hn2 : ∀ c ∈ nm.data, c ≠ '\n')
    (hf1 : fl.data ≠ []) (hf2 : ∀ c ∈ fl.data, isWS c = false)
    (hr : ∀ v ∈ [tm, tp, ts, xm0, xp0, xs0, xm1, xp1, xs1, xm2, xp2, xs2],
      inIntRange v) :
    outputlist_ctor true
      (String.mk (renderInput []
        [⟨nm, fl, tm, tp, ts, xm0, xp0, xs0, xm1, xp1, xs1, xm2, xp2, xs2⟩] suffix))
      probname datadir nt
      = CtorResult.ok
          [⟨nm, fl, some tm, some tp, some ts, (some xm0, some xm1, some xm2),
            (some xp0, some xp1, some xp2), (some xs0, some xs1, some xs2), false⟩] := by
  rw [ctor_open]
  have hdata : (String.mk (renderInput []
      [⟨nm, fl, tm, tp, ts, xm0, xp0, xs0, xm1, xp1, xs1, xm2, xp2, xs2⟩] suffix)).data
      = renderPre [] (markerLine.data ++ '\n' ::
          renderDecls [⟨nm, fl, tm, tp, ts, xm0, xp0, xs0, xm1, xp1, xs1, xm2, xp2, xs2⟩]
            ('\n' :: suffix.data)) := rfl
  rw [hdata]
  rw [scanToMarkerF_render [] (by simp)
    (renderDecls [⟨nm, fl, tm, tp, ts, xm0, xp0, xs0, xm1, xp1, xs1, xm2, xp2, xs2⟩]
      ('\n' :: suffix.data)) _ (Nat.lt_succ_self _)]
  have heq : (⟨renderDecls [⟨nm, fl, tm, tp, ts, xm0, xp0, xs0, xm1, xp1, xs1, xm2, xp2, xs2⟩]
      ('\n' :: suffix.data), false, false⟩ : IStream).eofb = false := rfl
  rw [heq]
  simp only [Bool.false_eq_true, if_false]
  rw [readUnitsF_render
    [⟨nm, fl, tm, tp, ts, xm0, xp0, xs0, xm1, xp1, xs1, xm2, xp2, xs2⟩]
    (by intro d hd; simp at hd; subst hd; exact ⟨hn1, hn2, hf1, hf2, by simpa using hr⟩)
    suffix.data initLocals [] _ (Nat.lt_succ_self _)]
  simp [declUnit]

/-- Witness for C6 at a concrete single-declaration input. -/
theorem C6_single_declaration_stops_at_blank_witness :
    (("out" : String).data ≠ [] ∧ (∀ c ∈ ("out" : String).data, c ≠ '\n')
      ∧ ("vz" : String).data ≠ [] ∧ (∀ c ∈ ("vz" : String).data, isWS c = false))
    ∧ outputlist_ctor true
        (String.mk (renderInput [] [⟨"out", "vz", 0, 4, 1, 2, 3, 1, 4, 5, 1, 6, 7, 1⟩] "x y"))
        "prob" "data" 9
      = CtorResult.ok
          [⟨"out", "vz", some 0, some 4, some 1, (some 2, some 4, some 6),
            (some 3, some 5, some 7), (some 1, some 1, some 1), false⟩] := by
  refine ⟨by decide, ?_⟩
  exact C6_single_declaration_stops_at_blank "out" "vz" 0 4 1 2 3 1 4 5 1 6 7 1
    "x y" "prob" "data" 9 (by decide) (by decide) (by decide) (by decide) (by decide)

/-- Claim C5: when the input file cannot be opened
(`paramfile.is_open()` false), `outputlist::outputlist` writes the
descriptive message "Error opening input file in outputlist.cpp" to
standard error and calls `MPI_Abort(MPI_COMM_WORLD,-1)`, which aborts the
whole distributed computation collectively; construction never returns a
list, for any file contents and any constructor arguments. -/
theorem C5_unopenable_file_fatal (contents probname datadir : String) (nt : Int) :
    outputlist_ctor false contents probname datadir nt
      = CtorResult.fatal "Error opening input file in outputlist.cpp\n" := rfl

/-- Claim C10: an empty output-list section — the marker line immediately
followed by a blank line (with arbitrary trailing content) or by
end-of-file — constructs successfully with an empty list (null `rootunit`),
and `write_list`, `close_list` and the destructor on the empty list
terminate immediately with no node event (no node is dereferenced). -/
theorem C10_empty_section_safe (suffix probname datadir : String) (nt : Int)
    (wf : outputunit → outputunit) :
    outputlist_ctor true (String.mk (markerLine.data ++ '\n' :: '\n' :: suffix.data))
        probname datadir nt = CtorResult.ok []
    ∧ outputlist_ctor true (String.mk (markerLine.data ++ ['\n'])) probname datadir nt
        = CtorResult.ok []
    ∧ destructTrace [] = []
    ∧ write_list wf 0 [] = ([], [])
    ∧ close_list 0 [] = ([], []) := by
  refine ⟨?_, rfl, rfl, rfl, rfl⟩
  rw [ctor_open]
  have hdata : (String.mk (markerLine.data ++ '\n' :: '\n' :: suffix.data)).data
      = renderPre [] (markerLine.data ++ '\n' :: '\n' :: suffix.data) := rfl
  rw [hdata]
  rw [scanToMarkerF_render [] (by simp) ('\n' :: suffix.data) _ (Nat.lt_succ_self _)]
  have heq : (⟨'\n' :: suffix.data, false, false⟩ : IStream).eofb = false := rfl
  rw [heq]
  simp only [Bool.false_eq_true, if_false]
  simp only [readUnitsF, getline_blank, List.isEmpty_nil, if_true]

/-- Counterexample to claim C4: the input file
`"[fdfault.outputlist]\nnm"` reaches end-of-file right after a unit's name
line — before the blank terminator and in the middle of the unit's
parameter tokens — yet construction completes normally (returning a
one-element list whose parameters were never read: empty field, every
window value still indeterminate) instead of reporting a fatal error. -/
theorem C4_counterexample :
    outputlist_ctor true "[fdfault.outputlist]\nnm" "p" "d" 1
      = CtorResult.ok [⟨"nm", "", none, none, none, (none, none, none),
          (none, none, none), (none, none, none), false⟩] := by
  decide

/-- Claim C4 as amended: premature end-of-file after the marker line is
not detected by `outputlist::outputlist`.  If end-of-file falls after a
unit's name line, every token extraction fails silently (the stream enters
the fail state), and construction still completes normally, appending a
unit whose field is the constructor's stale `field` local (initially empty)
and whose window parameters keep their previous (initially indeterminate)
values.  Only end-of-file during the marker scan is fatal. -/
theorem C4_amended_eof_completes (nm : String) (probname datadir : String) (nt : Int)
    (hn1 : nm.data ≠ []) (hn2 : ∀ c ∈ nm.data, c ≠ '\n') :
    outputlist_ctor true (String.mk (markerLine.data ++ '\n' :: nm.data))
        probname datadir nt
      = CtorResult.ok [⟨nm, "", none, none, none, (none, none, none),
          (none, none, none), (none, none, none), false⟩] := by
  rw [ctor_open]
  have hdata : (String.mk (markerLine.data ++ '\n' :: nm.data)).data
      = renderPre [] (markerLine.data ++ '\n' :: nm.data) := rfl
  rw [hdata]
  rw [scanToMarkerF_render [] (by simp) nm.data _ (Nat.lt_succ_self _)]
  have heq : (⟨nm.data, false, false⟩ : IStream).eofb = false := rfl
  rw [heq]
  simp only [Bool.false_eq_true, if_false]
  obtain ⟨a, t, hat⟩ : ∃ a t, nm.data = a :: t := by
    cases h : nm.data with
    | nil => exact absurd h hn1
    | cons a t => exact ⟨a, t, rfl⟩
  have hgl : getline ⟨nm.data, false, false⟩ = (⟨[], false, true⟩, some nm.data) :=
    getline_last nm.data hn1 hn2
  have hlen : (⟨nm.data, false, false⟩ : IStream).chars.length + 1 = t.length + 1 + 1 := by
    simp [hat]
  rw [hlen]
  simp only [readUnitsF, hgl]
  have hne : nm.data.isEmpty = false := by rw [hat]; rfl
  simp only [hne, Bool.false_eq_true, if_false]
  rw [readUnitBody_failed ⟨[], false, true⟩ (Or.inr rfl) initLocals (String.mk nm.data)]
  simp only [mkData]
  cases t with
  | nil => simp [readUnitsF, getline, initLocals]
  | cons b t2 => simp [readUnitsF, getline, initLocals]

/-- Witness for the amended claim C4 at the concrete input of
`C4_counterexample`. -/
theorem C4_amended_eof_completes_witness :
    (("nm" : String).data ≠ [] ∧ (∀ c ∈ ("nm" : String).data, c ≠ '\n'))
    ∧ outputlist_ctor true (String.mk (markerLine.data ++ '\n' :: ("nm" : String).data))
        "p" "d" 1
      = CtorResult.ok [⟨"nm", "", none, none, none, (none, none, none),
          (none, none, none), (none, none, none), false⟩] := by
  refine ⟨by decide, ?_⟩
  exact C4_amended_eof_completes "nm" "p" "d" 1 (by decide) (by decide)

/-- Claim C3: if the input file opens but no line of it equals the literal
marker "[fdfault.outputlist]", `outputlist::outputlist` writes
"Error reading outputlist from input file" to standard error and calls
`MPI_Abort(MPI_COMM_WORLD,-1)`, aborting the whole distributed computation;
construction never returns a list. -/
theorem C3_missing_marker_fatal (contents probname datadir : String) (nt : Int)
    (h : ∀ l ∈ linesOf contents.data, String.mk l ≠ markerLine) :
    outputlist_ctor true contents probname datadir nt
      = CtorResult.fatal "Error reading outputlist from input file\n" := by
  rw [ctor_open]
  rw [if_pos]
  exact scan_no_marker (contents.data.length + 1) ⟨contents.data, false, false⟩
    (Nat.lt_succ_self _) rfl rfl h

/-- Witness for C3 at a concrete marker-free input. -/
theorem C3_missing_marker_fatal_witness :
    (∀ l ∈ linesOf ("abc\ndef" : String).data, String.mk l ≠ markerLine)
    ∧ outputlist_ctor true "abc\ndef" "p" "d" 1
        = CtorResult.fatal "Error reading outputlist from input file\n" := by
  refine ⟨by decide, ?_⟩
  exact C3_missing_marker_fatal "abc\ndef" "p" "d" 1 (by decide)

/-! Teardown-trace lemmas for `outputlist::~outputlist`. -/

theorem evKey_touches (e : TEv) :
    3 * touches e ≤ evKey e ∧ evKey e ≤ 3 * touches e + 2 := by
  cases e <;> constructor <;> simp [touches, evKey]

theorem evKey_destructFrom_lb :
    ∀ (k : Nat) (bs : List Bool) (e : TEv), e ∈ destructFrom k bs → 3 * k ≤ evKey e := by
  intro k bs
  induction bs generalizing k with
  | nil => intro e he; simp [destructFrom] at he
  | cons b rest ih =>
    intro e he
    simp only [destructFrom, List.mem_cons, List.mem_append] at he
    rcases he with rfl | he | rfl | he
    · simp [evKey]
    · cases b with
      | true =>
        simp at he
        subst he
        have hc : evKey (TEv.close k) = 3 * k + 1 := rfl
        omega
      | false => simp at he
    · have hc : evKey (TEv.free k) = 3 * k + 2 := rfl
      omega
    · have := ih (k + 1) e he
      omega

theorem pairwise_destructFrom :
    ∀ (k : Nat) (bs : List Bool),
      List.Pairwise (fun a b => evKey a < evKey b) (destructFrom k bs) := by
  intro k bs
  induction bs generalizing k with
  | nil => simp [destructFrom]
  | cons b rest ih =>
    simp only [destructFrom]
    rw [List.pairwise_cons]
    constructor
    · intro e he
      have hacc : evKey (TEv.access k) = 3 * k := rfl
      rcases List.mem_append.mp he with he | he
      · cases b with
        | true =>
          simp at he
          subst he
          have hc : evKey (TEv.close k) = 3 * k + 1 := rfl
          omega
        | false => simp at he
      · rcases List.mem_cons.mp he with rfl | he
        · have hc : evKey (TEv.free k) = 3 * k + 2 := rfl
          omega
        · have := evKey_destructFrom_lb (k + 1) rest e he
          omega
    · rw [List.pairwise_append]
      refine ⟨?_, ?_, ?_⟩
      · cases b <;> simp
      · rw [List.pairwise_cons]
        refine ⟨?_, ih (k + 1)⟩
        intro e he
        have := evKey_destructFrom_lb (k + 1) rest e he
        have hc : evKey (TEv.free k) = 3 * k + 2 := rfl
        omega
      · intro x hx y hy
        cases b with
        | true =>
          simp at hx
          subst hx
          have hc : evKey (TEv.close k) = 3 * k + 1 := rfl
          rcases List.mem_cons.mp hy with rfl | hy
          · have hf : evKey (TEv.free k) = 3 * k + 2 := rfl
            omega
          · have := evKey_destructFrom_lb (k + 1) rest y hy
            omega
        | false => simp at hx

theorem count_free_destructFrom (i : Nat) :
    ∀ (k : Nat) (bs : List Bool),
      (destructFrom k bs).count (TEv.free i)
        = if k ≤ i ∧ i < k + bs.length then 1 else 0 := by
  intro k bs
  induction bs generalizing k with
  | nil =>
    simp only [destructFrom, List.count_nil, List.length_nil]
    split
    · omega
    · rfl
  | cons b rest ih =>
    have hseg : ∀ t : List TEv,
        (TEv.access k :: ((if b = true then [TEv.close k] else []) ++ TEv.free k :: t)).count
            (TEv.free i)
          = (if k = i then 1 else 0) + t.count (TEv.free i) := by
      intro t
      by_cases hik : k = i <;> cases b <;>
        simp [List.count_cons, List.count_append, beq_iff_eq, hik] <;> omega
    simp only [destructFrom, List.length_cons]
    rw [hseg, ih (k + 1)]
    split_ifs <;> omega

theorem close_mem_destructFrom :
    ∀ (bs : List Bool) (k i : Nat) (hi : i < bs.length),
      bs.get ⟨i, hi⟩ = true → TEv.close (k + i) ∈ destructFrom k bs := by
  intro bs
  induction bs with
  | nil => intro k i hi; simp at hi
  | cons b rest ih =>
    intro k i hi hb
    cases i with
    | zero =>
      simp at hb
      subst hb
      simp [destructFrom]
    | succ i =>
      simp only [List.get_cons_succ] at hb
      have := ih (k + 1) i (by simpa using Nat.lt_of_succ_lt_succ hi) hb
      simp only [destructFrom, List.mem_cons, List.mem_append]
      right; right; right
      have harith : k + 1 + i = k + (i + 1) := by omega
      rwa [harith] at this

/-- Claim C1: during `outputlist::~outputlist`, (a) every node of the list
is freed exactly once and nothing outside the list is freed; (b) a node
whose output file is open has that file released during teardown; (c) the
release of a node's file happens strictly before that node is freed;
(d) once a node has been freed, no later teardown event (next-pointer
access, file release, or free) touches it. -/
theorem C1_teardown_safe (us : List outputunit) :
    (∀ i : Nat, (destructTrace us).count (TEv.free i)
        = if i < us.length then 1 else 0)
    ∧ (∀ (i : Nat) (hi : i < us.length), (us.get ⟨i, hi⟩).fileOpen = true →
        TEv.close i ∈ destructTrace us)
    ∧ (∀ (n1 n2 : Fin (destructTrace us).length) (i : Nat),
        (destructTrace us).get n1 = TEv.close i →
        (destructTrace us).get n2 = TEv.free i → n1 < n2)
    ∧ (∀ (n1 n2 : Fin (destructTrace us).length) (i : Nat),
        (destructTrace us).get n1 = TEv.free i → n1 < n2 →
        touches ((destructTrace us).get n2) ≠ i) := by
  have hpw : List.Pairwise (fun a b => evKey a < evKey b) (destructTrace us) := by
    simp only [destructTrace]
    exact pairwise_destructFrom 0 (us.map fun u => u.fileOpen)
  have hget := List.pairwise_iff_get.mp hpw
  refine ⟨?_, ?_, ?_, ?_⟩
  · intro i
    rw [destructTrace, count_free_destructFrom i 0]
    simp only [List.length_map, Nat.zero_add, Nat.zero_le, true_and]
  · intro i hi hopen
    have hmem := close_mem_destructFrom (us.map fun u => u.fileOpen) 0 i
      (by simpa using hi) (by simpa using hopen)
    simpa [destructTrace] using hmem
  · intro n1 n2 i h1 h2
    rcases lt_trichotomy n1 n2 with h | h | h
    · exact h
    · exfalso
      rw [h, h2] at h1
      simp at h1
    · exfalso
      have := hget n2 n1 h
      rw [h1, h2] at this
      simp [evKey] at this
  · intro n1 n2 i h1 hlt h2
    have := hget n1 n2 hlt
    rw [h1] at this
    have hb := evKey_touches ((destructTrace us).get n2)
    rw [h2] at hb
    have hkey : evKey (TEv.free i) = 3 * i + 2 := rfl
    omega

/-- Witness for C1 on a concrete two-node list: the first node's file is
open and gets closed (at trace position 1) before the node is freed (at
trace position 2), and nothing after that free touches node 0. -/
theorem C1_teardown_safe_witness :
    TEv.close 0 ∈ destructTrace
      [⟨"a", "v", some 0, some 0, some 0, (some 0, some 0, some 0),
        (some 0, some 0, some 0), (some 0, some 0, some 0), true⟩,
       ⟨"b", "w", some 1, some 1, some 1, (some 1, some 1, some 1),
        (some 1, some 1, some 1), (some 1, some 1, some 1), false⟩]
    ∧ ((⟨1, by decide⟩ : Fin 5) < (⟨2, by decide⟩ : Fin 5))
    ∧ touches ((destructTrace
      [⟨"a", "v", some 0, some 0, some 0, (some 0, some 0, some 0),
        (some 0, some 0, some 0), (some 0, some 0, some 0), true⟩,
       ⟨"b", "w", some 1, some 1, some 1, (some 1, some 1, some 1),
        (some 1, some 1, some 1), (some 1, some 1, some 1), false⟩]).get ⟨3, by decide⟩) ≠ 0 := by
  refine ⟨?_, ?_, ?_⟩
  · exact (C1_teardown_safe _).2.1 0 (by decide) (by decide)
  · exact (C1_teardown_safe
      [⟨"a", "v", some 0, some 0, some 0, (some 0, some 0, some 0),
        (some 0, some 0, some 0), (some 0, some 0, some 0), true⟩,
       ⟨"b", "w", some 1, some 1, some 1, (some 1, some 1, some 1),
        (some 1, some 1, some 1), (some 1, some 1, some 1), false⟩]).2.2.1
      ⟨1, by decide⟩ ⟨2, by decide⟩ 0 (by decide) (by decide)
  · exact (C1_teardown_safe _).2.2.2 ⟨2, by decide⟩ ⟨3, by decide⟩ 0 (by decide) (by decide)

theorem write_list_from (wf : outputunit → outputunit) :
    ∀ (us : List outputunit) (k : Nat),
      write_list wf k us = (us.map wf, (List.range' k us.length).map TEv.write) := by
  intro us
  induction us with
  | nil => intro k; simp [write_list]
  | cons u rest ih =>
    intro k
    simp [write_list, ih (k + 1), List.range'_succ]

theorem close_list_from :
    ∀ (us : List outputunit) (k : Nat),
      close_list k us = (us.map close_file, (List.range' k us.length).map TEv.close) := by
  intro us
  induction us with
  | nil => intro k; simp [close_list]
  | cons u rest ih =>
    intro k
    simp [close_list, ih (k + 1), List.range'_succ]

/-- Claim C7: `outputlist::write_list(tstep, dt, d)` calls
`write_unit(tstep, dt, d)` exactly once on every unit of the list, in list
(declaration) order, and changes nothing about the list structure beyond
applying `write_unit`'s own per-unit effect (here an arbitrary `wf`) to
each unit in place; likewise `outputlist::close_list` calls `close_file`
exactly once per unit in list order, leaving the same units in the same
order with only their open-file state cleared. -/
theorem C7_traversal_calls_each_unit_once (wf : outputunit → outputunit)
    (us : List outputunit) :
    (write_list wf 0 us).2 = (List.range us.length).map TEv.write
    ∧ (write_list wf 0 us).1 = us.map wf
    ∧ (close_list 0 us).2 = (List.range us.length).map TEv.close
    ∧ (close_list 0 us).1 = us.map close_file := by
  rw [write_list_from wf us 0, close_list_from us 0, List.range_eq_range']
  exact ⟨rfl, rfl, rfl, rfl⟩

/-- Counterexample to claim C8: at the tie-break point where the elastic
traction magnitude exactly equals the (nonzero) friction strength, the
claim demands a returned slip velocity strictly greater than zero, but the
solve returns exactly zero (the point stays on the strength curve with
`v = 0`): with strength 1, traction 1, damping 1, normal stress 1, the
traction is not below strength, yet the solved slip velocity is 0. -/
theorem C8_counterexample :
    ¬ ((1 : ℚ) < 1) ∧ (0 : ℚ) < 1
      ∧ solve_fs 1 1 1 1 = { v := 0, s := 1 } := by
  refine ⟨by norm_num, by norm_num, ?_⟩
  simp [solve_fs, effectiveStrength]
  norm_num

/-- Claim C8 as amended: for a point with positive friction strength
(positive effective normal stress, positive radiation-damping coefficient),
if the incoming elastic traction magnitude is below the strength the solved
slip velocity is exactly zero and the traction passes through (Locked, no
root-find); if it exactly equals the strength the solved slip velocity is
likewise zero with traction pinned to the strength; and if it strictly
exceeds the strength the solve returns the unique `v > 0` lying
simultaneously on the radiation-damping line and the strength curve. -/
theorem C8_amended_locked_or_unique_root (nominal phi eta snc : ℚ)
    (hst : 0 < nominal) (hsnc : 0 < snc) (heta : 0 < eta) :
    (phi < nominal → solve_fs nominal phi eta snc = { v := 0, s := phi })
    ∧ (phi = nominal → solve_fs nominal phi eta snc = { v := 0, s := nominal })
    ∧ (nominal < phi →
        0 < (solve_fs nominal phi eta snc).v
        ∧ (solve_fs nominal phi eta snc).s
            = phi - eta * (solve_fs nominal phi eta snc).v
        ∧ (solve_fs nominal phi eta snc).s = nominal
        ∧ ∀ v2 t2 : ℚ, 0 < v2 → t2 = phi - eta * v2 → t2 = nominal →
            v2 = (solve_fs nominal phi eta snc).v) := by
  have hnot : ¬ snc ≤ 0 := not_le.mpr hsnc
  refine ⟨?_, ?_, ?_⟩
  · intro hlt
    simp [solve_fs, effectiveStrength, hnot, hlt]
  · intro heq
    subst heq
    simp [solve_fs, effectiveStrength, hnot]
  · intro hgt
    have hout : solve_fs nominal phi eta snc = { v := (phi - nominal) / eta, s := nominal } := by
      simp [solve_fs, effectiveStrength, hnot, not_lt.mpr (le_of_lt hgt)]
    rw [hout]
    have hetan : eta ≠ 0 := ne_of_gt heta
    refine ⟨?_, ?_, rfl, ?_⟩
    · exact div_pos (by linarith) heta
    · field_simp
    · intro v2 t2 hv2 ht2 htn
      field_simp
      linarith

/-- Witness for the amended claim C8 at strength 2, damping 1, normal
stress 1: elastic traction 1 (below strength) gives the Locked state, and
elastic traction 3 (above strength) gives a positive slip velocity. -/
theorem C8_amended_locked_or_unique_root_witness :
    (0 : ℚ) < 2 ∧ (0 : ℚ) < 1
    ∧ solve_fs 2 1 1 1 = { v := 0, s := 1 }
    ∧ 0 < (solve_fs 2 3 1 1).v := by
  refine ⟨by norm_num, by norm_num, ?_, ?_⟩
  · exact (C8_amended_locked_or_unique_root 2 1 1 1 (by norm_num) (by norm_num)
      (by norm_num)).1 (by norm_num)
  · exact ((C8_amended_locked_or_unique_root 2 3 1 1 (by norm_num) (by norm_num)
      (by norm_num)).2.2 (by norm_num)).1

/-- Claim C9: whenever the effective normal stress is zero or negative
(loss of contact), the shear strength used by the friction solve is exactly
zero regardless of the law's nominal output, and the root-find is bypassed:
the solve returns the full stress-free-slip solution, shear traction zero
with the slip velocity read off the radiation-damping line. -/
theorem C9_separation_forces_zero_strength (nominal phi eta snc : ℚ)
    (h : snc ≤ 0) (heta : 0 < eta) :
    effectiveStrength nominal snc = 0
    ∧ solve_fs nominal phi eta snc = { v := phi / eta, s := 0 }
    ∧ (solve_fs nominal phi eta snc).s
        = phi - eta * (solve_fs nominal phi eta snc).v := by
  have hetan : eta ≠ 0 := ne_of_gt heta
  refine ⟨by simp [effectiveStrength, h], by simp [solve_fs, h], ?_⟩
  simp [solve_fs, h]
  field_simp

/-- Witness for C9 at zero normal stress with nominal strength 5. -/
theorem C9_separation_forces_zero_strength_witness :
    ((0 : ℚ) ≤ 0 ∧ (0 : ℚ) < 1)
    ∧ effectiveStrength 5 0 = 0
    ∧ solve_fs 5 3 1 0 = { v := 3 / 1, s := 0 }
    ∧ (solve_fs 5 3 1 0).s = 3 - 1 * (solve_fs 5 3 1 0).v := by
  have h := C9_separation_forces_zero_strength 5 3 1 0 (le_refl 0) (by norm_num)
  exact ⟨⟨le_refl 0, by norm_num⟩, h.1, h.2.1, h.2.2⟩

end Fdfault
